import Mathlib

set_option maxRecDepth 8000

/-!
Shallow embedding of `src/main.rs` of the `bear_rs` repository.

The source program wraps a build command, scans its stdout line by line,
classifies each line with `is_compile_command`, extracts a source-file name
with the regex `(\S+\.(c|cpp|cc|cxx))\s?`, and streams the accepted records
into a JSON array in `compile_commands.json`.

Strings are modelled as Lean `String` (lists of characters); Rust
`str::contains` becomes substring (infix) containment; the two regexes of the
program are embedded by executable matchers that implement the regex crate's
leftmost-first (preference-order, Perl-style) match semantics, restricted to
the ASCII fragment of `\w`, `\s`, `\S` (every line appearing in the claims is
ASCII, and the optional group of the compiler regex is insensitive to this
restriction).
-/

/-- Rust `line.contains(pat)`: substring containment. -/
def containsStr (hay pat : String) : Bool := decide (pat.data <:+: hay.data)

/-- The character class `\s` of the regex crate (ASCII fragment). -/
def isWS (c : Char) : Bool :=
  c = ' ' || c = '\t' || c = '\n' || c = '\x0b' || c = '\x0c' || c = '\r'

/-- The character class `\w` of the regex crate (ASCII fragment). -/
def wordChar (c : Char) : Bool := c.isAlphanum || c = '_'

/-- The literal alternatives `cc|c++|gcc|g++|clang|clang++` of `compiler_regex`
(`src/main.rs` line 82), in source order. -/
def compilerBasenames : List (List Char) :=
  [("cc").data, ("c++").data, ("gcc").data, ("g++").data,
   ("clang").data, ("clang++").data]

/-- First character of the list is in `\s`. -/
def headIsWS : List Char → Bool
  | c :: _ => isWS c
  | [] => false

/-- The mandatory tail `/(cc|c++|gcc|g++|clang|clang++)\s` of `compiler_regex`
matches at the head of `s`. -/
def tailMatch (s : List Char) : Bool :=
  compilerBasenames.any fun name =>
    (('/' :: name).isPrefixOf s) && headIsWS (s.drop (name.length + 1))

/-- `g` is a string matched by the optional group `(/[\w/]+)` of
`compiler_regex`: a slash followed by one or more `[\w/]` characters. -/
def validGroup (g : List Char) : Bool :=
  match g with
  | '/' :: gs => !gs.isEmpty && gs.all (fun c => wordChar c || c = '/')
  | _ => false

/-- The whole pattern `(/[\w/]+)?/(cc|c++|gcc|g++|clang|clang++)\s` matches at
the head of `s` (for some split into optional group and mandatory tail). -/
def patternAt (s : List Char) : Bool :=
  tailMatch s ||
    (List.range (s.length + 1)).any fun n =>
      validGroup (s.take n) && tailMatch (s.drop n)

/-- `compiler_regex.is_match(line)`: the pattern matches at some position of
the line (`src/main.rs` line 82). -/
def regexIsMatch (line : String) : Bool :=
  (List.range (line.data.length + 1)).any fun i => patternAt (line.data.drop i)

/-- `is_compile_command` (`src/main.rs` lines 162-178). -/
def is_compile_command (line : String) : Bool :=
  let contains_compile_flag := containsStr line " -c "
  let contains_output_flag := containsStr line " -o "
  let contains_source_file :=
    containsStr line ".c" || containsStr line ".cpp" ||
      containsStr line ".cc" || containsStr line ".cxx"
  regexIsMatch line && contains_compile_flag && contains_output_flag &&
    contains_source_file

/-- The alternatives `c|cpp|cc|cxx` of `source_file_regex`, in source order. -/
def sourceExts : List (List Char) :=
  [("c").data, ("cpp").data, ("cc").data, ("cxx").data]

/-- Preference-order choice of the alternation `(c|cpp|cc|cxx)`: the first
alternative (in pattern order) that matches at the head of `r`, as a
backtracking engine and the regex crate's leftmost-first semantics choose. -/
def extAt (r : List Char) : Option (List Char) :=
  sourceExts.find? fun e => e.isPrefixOf r

/-- Preference-order match of `(\S+\.(c|cpp|cc|cxx))` starting exactly at the
head of `s`, returning capture group 1.  `\S+` is greedy, so the lengths of
the non-space run are tried from longest to shortest; the trailing `\s?` of
`source_file_regex` is optional and can constrain nothing. -/
def fileMatchAt (s : List Char) : Option (List Char) :=
  let m := (s.takeWhile fun c => !isWS c).length
  (List.range m).findSome? fun k =>
    let n := m - k
    match s.drop n with
    | '.' :: r => (extAt r).map fun e => s.take n ++ '.' :: e
    | _ => none

/-- `source_file_regex.captures(line)` group 1, or `""` when there is no
match (`src/main.rs` lines 106-111): the match starting at the leftmost
possible position is taken. -/
def source_file (line : String) : String :=
  match (List.range (line.data.length + 1)).findSome?
      (fun i => fileMatchAt (line.data.drop i)) with
  | some l => String.mk l
  | none => ""

/-- The `CompileCommand` record (`src/main.rs` lines 11-16); field order as
declared, all fields strings. -/
structure CompileCommand where
  directory : String
  command : String
  file : String
deriving DecidableEq

/-- Record construction in the accepted branch of `process_line`
(`src/main.rs` lines 113-121): `directory` is the current working directory,
`command` the verbatim line, `file` the extracted source file. -/
def mkRecord (cwd line : String) : CompileCommand :=
  { directory := cwd, command := line, file := source_file line }

/-- The diagnostic reason codes of the spec, in the order the reject branch of
`process_line` tests for them. -/
inductive ReasonCode where
  | MissingCompileFlag
  | MissingOutputFlag
  | MissingSourceExtension
  | LooksLikeBuildSystemNoise
  | NotACompilerInvocation
deriving DecidableEq

/-- The reasons printed by the reject branch of `process_line`
(`src/main.rs` lines 136-158), one per failed test, in source order. -/
def reasons (line : String) : List ReasonCode :=
  (if !containsStr line " -c " then [ReasonCode.MissingCompileFlag] else []) ++
  (if !containsStr line " -o " then [ReasonCode.MissingOutputFlag] else []) ++
  (if !(containsStr line ".c" || containsStr line ".cpp" ||
        containsStr line ".cc" || containsStr line ".cxx") then
    [ReasonCode.MissingSourceExtension] else []) ++
  (if containsStr line "CMakeFiles" || containsStr line ".make" ||
      containsStr line "target" then
    [ReasonCode.LooksLikeBuildSystemNoise] else []) ++
  (if !regexIsMatch line then [ReasonCode.NotACompilerInvocation] else [])

/-- The classification outcome of one line: the accept/reject decision of
`process_line` together with what it derives from the line alone (the
extracted file on acceptance, the diagnosed reasons on rejection). -/
inductive ClassificationOutcome where
  | accepted (file : String)
  | rejected (codes : List ReasonCode)
deriving DecidableEq

/-- The line-classification function embodied by `process_line`
(`src/main.rs` lines 102-158), as a pure function of the line. -/
def classify (line : String) : ClassificationOutcome :=
  if is_compile_command line then
    ClassificationOutcome.accepted (source_file line)
  else
    ClassificationOutcome.rejected (reasons line)

/-- Hexadecimal digit characters as written by serde_json (lowercase). -/
def hexDigit (n : Nat) : Char :=
  if n < 10 then Char.ofNat (48 + n) else Char.ofNat (87 + n)

/-- serde_json's escaping of one character inside a JSON string: quote and
backslash are escaped, the control characters BS, TAB, LF, FF, CR get their
short escapes, the remaining control characters are written `\u00XX`, and
every other character is written verbatim. -/
def escapeChar (c : Char) : List Char :=
  if c = '"' then ['\\', '"']
  else if c = '\\' then ['\\', '\\']
  else if c = '\x08' then ['\\', 'b']
  else if c = '\t' then ['\\', 't']
  else if c = '\n' then ['\\', 'n']
  else if c = '\x0c' then ['\\', 'f']
  else if c = '\r' then ['\\', 'r']
  else if c.toNat < 32 then
    ['\\', 'u', '0', '0', hexDigit (c.toNat / 16), hexDigit (c.toNat % 16)]
  else [c]

/-- serde_json's escaping of a whole string body. -/
def escStr : List Char → List Char
  | [] => []
  | c :: s => escapeChar c ++ escStr s

/-- Literal scaffold of `serde_json::to_string_pretty` for `CompileCommand`:
opening brace, indentation and the `directory` key. -/
def objHead : List Char := ("\x7b\n  \"directory\": \"").data

/-- Scaffold between the `directory` value and the `command` value (without
the closing quote of the former). -/
def sepCommand : List Char := (",\n  \"command\": \"").data

/-- Scaffold between the `command` value and the `file` value (without the
closing quote of the former). -/
def sepFile : List Char := (",\n  \"file\": \"").data

/-- Scaffold after the `file` value (without its closing quote): newline and
closing brace. -/
def objTail : List Char := ("\n\x7d").data

/-- `serde_json::to_string_pretty(&compile_command)` (`src/main.rs` line 124):
a pretty-printed JSON object with the three fields in declaration order. -/
def renderRecord (r : CompileCommand) : List Char :=
  objHead ++ escStr r.directory.data ++ ('"' :: sepCommand) ++
    escStr r.command.data ++ ('"' :: sepFile) ++
    escStr r.file.data ++ ('"' :: objTail)

/-- The destination stream of the run (the `tokio::fs::File`), abstracted as
an external collaborator: it records the successfully written characters and
a set of write-call indices at which the underlying stream rejects the write
(disk full, stream closed, ...).  `failOn = []` is a destination that never
fails. -/
structure Dest where
  written : List Char
  nCalls : Nat
  failOn : List Nat
deriving DecidableEq

/-- One `file.write_all(s).await` call: either the stream rejects this call
(the data is not written and the call reports failure) or the data is
appended.  The second component is the success flag (`Ok`/`Err` of the
returned `io::Result`). -/
def write_all (d : Dest) (s : List Char) : Dest × Bool :=
  if d.failOn.contains d.nCalls then
    ({ d with nCalls := d.nCalls + 1 }, false)
  else
    ({ written := d.written ++ s, nCalls := d.nCalls + 1, failOn := d.failOn },
      true)

/-- `process_line` (`src/main.rs` lines 102-135): on an accepted line, build
the record, serialize it, write a separating comma unless this is the first
entry, and write the record.  The `let _ = file.write_all(...)` statements of
the source discard the success flag, which `(write_all ...).1` reproduces;
the function returns no error to its caller. -/
def process_line (line : String) (cwd : String) (file : Dest)
    (first_entry : Bool) : Dest × Bool :=
  if is_compile_command line then
    let json := renderRecord (mkRecord cwd line)
    let st :=
      if first_entry then (file, false)
      else ((write_all file ((",\n").data)).1, first_entry)
    ((write_all st.1 json).1, st.2)
  else (file, first_entry)

/-- The destination-facing behaviour of `main` (`src/main.rs` lines 68-97):
write the opening bracket (propagating failure via `?`), feed every stdout
line to `process_line` threading the `first_entry` flag, then write the
closing bracket (again propagating failure). -/
def runMain (lines : List String) (cwd : String) (d0 : Dest) :
    Except Unit Dest :=
  let w1 := write_all d0 (("[\n").data)
  if w1.2 then
    let st := lines.foldl
      (fun acc line => process_line line cwd acc.1 acc.2) (w1.1, true)
    let w2 := write_all st.1 (("\n]\n").data)
    if w2.2 then Except.ok w2.1 else Except.error ()
  else Except.error ()

/-- The final destination state of a completed run, `none` when the run
aborted with an error. -/
def runResult (lines : List String) (cwd : String) (d0 : Dest) : Option Dest :=
  match runMain lines cwd d0 with
  | Except.ok d => some d
  | Except.error _ => none

/-- The file content produced by a run against a destination that never
fails (`none` would mean the run aborted, which cannot happen here). -/
def runOutput (lines : List String) (cwd : String) : Option (List Char) :=
  (runResult lines cwd { written := [], nCalls := 0, failOn := [] }).map
    (fun d => d.written)

/-- Comma-separated sequencing of serialized records: a separating `,\n` is
written before a record iff some record precedes it. -/
def joinRecs : List (List Char) → List Char
  | [] => []
  | [r] => r
  | r :: q :: rs => r ++ ((",\n").data) ++ joinRecs (q :: rs)

/-- Numeric value of a hexadecimal digit character, as a JSON parser reads
`\uXXXX` escapes. -/
def hexVal (c : Char) : Option Nat :=
  if 48 ≤ c.toNat ∧ c.toNat ≤ 57 then some (c.toNat - 48)
  else if 97 ≤ c.toNat ∧ c.toNat ≤ 102 then some (c.toNat - 87)
  else if 65 ≤ c.toNat ∧ c.toNat ≤ 70 then some (c.toNat - 55)
  else none

/-- Decoding of the simple JSON escapes `\" \\ \/ \b \f \n \r \t`. -/
def decodeEsc (e : Char) : Option Char :=
  if e = '"' then some '"'
  else if e = '\\' then some '\\'
  else if e = '/' then some '/'
  else if e = 'b' then some '\x08'
  else if e = 'f' then some '\x0c'
  else if e = 'n' then some '\n'
  else if e = 'r' then some '\r'
  else if e = 't' then some '\t'
  else none

/-- JSON string-body parser (the part after an opening quote): returns the
decoded characters and the input remaining after the closing quote.  Raw
control characters are rejected, as serde_json's parser rejects them. -/
def parseStringBody : List Char → Option (List Char × List Char)
  | [] => none
  | c :: rest =>
    if c = '"' then some ([], rest)
    else if c = '\\' then
      match rest with
      | [] => none
      | e :: rest2 =>
        if e = 'u' then
          match rest2 with
          | a :: b :: x :: y :: rest3 =>
            match hexVal a, hexVal b, hexVal x, hexVal y with
            | some va, some vb, some vx, some vy =>
              match parseStringBody rest3 with
              | some (str, rem) =>
                some (Char.ofNat (va * 4096 + vb * 256 + vx * 16 + vy) :: str,
                  rem)
              | none => none
            | _, _, _, _ => none
          | _ => none
        else
          match decodeEsc e with
          | some d =>
            match parseStringBody rest2 with
            | some (str, rem) => some (d :: str, rem)
            | none => none
          | none => none
    else if c.toNat < 32 then none
    else
      match parseStringBody rest with
      | some (str, rem) => some (c :: str, rem)
      | none => none

/-- Consume an expected literal prefix of the input. -/
def expectLit (lit s : List Char) : Option (List Char) :=
  if lit.isPrefixOf s then some (s.drop lit.length) else none

/-- Parse one serialized `CompileCommand` object (in the exact shape the
program emits) from the front of the input; returns the record and the
remaining input.  The three keys must be present in order and nothing else
is accepted, so a successful parse carries exactly the fields `directory`,
`command`, `file`. -/
def parseRecordPrefix (s : List Char) :
    Option (CompileCommand × List Char) := do
  let s1 ← expectLit objHead s
  let (d, s2) ← parseStringBody s1
  let s3 ← expectLit sepCommand s2
  let (c, s4) ← parseStringBody s3
  let s5 ← expectLit sepFile s4
  let (f, s6) ← parseStringBody s5
  let s7 ← expectLit objTail s6
  pure ({ directory := String.mk d, command := String.mk c,
          file := String.mk f }, s7)

/-- Deserialize one standalone serialized record (whole input consumed). -/
def parseRecordString (s : List Char) : Option CompileCommand :=
  match parseRecordPrefix s with
  | some (r, []) => some r
  | _ => none

/-- The closing delimiter written by `main`. -/
def closeLit : List Char := ("\n]\n").data

/-- Parse the comma-separated elements of a non-empty emitted array, ended by
the closing delimiter.  The fuel argument only bounds the recursion and is in
excess of the number of elements. -/
def parseElems : Nat → List Char → Option (List CompileCommand)
  | 0, _ => none
  | Nat.succ fuel, s =>
    match parseRecordPrefix s with
    | none => none
    | some (r, rest) =>
      if rest = closeLit then some [r]
      else
        match expectLit ((",\n").data) rest with
        | none => none
        | some rest2 =>
          match parseElems fuel rest2 with
          | some rs => some (r :: rs)
          | none => none

/-- Deserialize the whole emitted file back into its list of records. -/
def parseTopArray (s : List Char) : Option (List CompileCommand) :=
  match expectLit (("[\n").data) s with
  | none => none
  | some rest =>
    if rest = closeLit then some []
    else parseElems (rest.length + 1) rest

/-- The line contains `/` followed by a compiler basename followed by a
whitespace character — the language of `compiler_regex`, collapsed to its
mandatory part. -/
def compilerHit (line : String) : Prop :=
  ∃ name ∈ compilerBasenames, ∃ c : Char,
    isWS c = true ∧ ('/' :: (name ++ [c])) <:+: line.data

/-- The characters the `process_line` fold appends for a given list of
serialized records: a `,\n` separator precedes a record iff a record was
written before it (`fe` is the incoming `first_entry` flag). -/
def seqOut : Bool → List (List Char) → List Char
  | _, [] => []
  | true, r :: rs => r ++ seqOut false rs
  | false, r :: rs => ((",\n").data) ++ r ++ seqOut false rs

/-- An ASCII apostrophe, written by code point to keep the file free of
string-literal quoting pitfalls. -/
def squote : Char := Char.ofNat 39

/-- The input line of end-to-end scenario B: a make directory-change notice
(the path is wrapped in apostrophes). -/
def makeNoiseLine : String :=
  "make[1]: Entering directory " ++ String.mk [squote, '/', 's', 'r', 'c', squote]

/-- Modelled from the spec (claim C2 wording of condition 4 of §4.1): one of
the compiler basenames followed by a space, preceded by an OPTIONAL absolute
path prefix, so that a bare basename such as `gcc ` qualifies.  Stated for
comparison against the source-derived `regexIsMatch`. -/
def claimCompilerPattern (line : String) : Prop :=
  ∃ name ∈ compilerBasenames, ∃ p : List Char,
    (p = [] ∨ (∃ q : List Char, p = '/' :: q ++ ['/'])) ∧
    ((p ++ name ++ [' ']) <:+: line.data)

/-- A JSON-significant character: double quote, backslash, or a control
character. -/
def jsonSignificant (c : Char) : Prop := c = '"' ∨ c = '\\' ∨ c.toNat < 32

/-! ### Characterization of the embedded matchers -/

lemma containsStr_eq_true_iff (hay pat : String) :
    containsStr hay pat = true ↔ pat.data <:+: hay.data := by
  simp [containsStr]

lemma containsStr_mono {L lineBig pat : String}
    (h : containsStr L pat = true) (hsub : L.data <:+: lineBig.data) :
    containsStr lineBig pat = true := by
  rw [containsStr_eq_true_iff] at h ⊢
  exact h.trans hsub

lemma headIsWS_eq_true_iff (l : List Char) :
    headIsWS l = true ↔ ∃ c t, l = c :: t ∧ isWS c = true := by
  cases l with
  | nil => simp [headIsWS]
  | cons a t =>
    simp only [headIsWS]
    constructor
    · intro h
      exact ⟨a, t, rfl, h⟩
    · rintro ⟨c, t', heq, hws⟩
      cases heq
      exact hws

lemma tailMatch_eq_true_iff (s : List Char) :
    tailMatch s = true ↔
      ∃ name ∈ compilerBasenames, ∃ c t,
        isWS c = true ∧ s = '/' :: (name ++ c :: t) := by
  simp only [tailMatch, List.any_eq_true, Bool.and_eq_true]
  constructor
  · rintro ⟨name, hmem, hpre, hws⟩
    rw [ List.isPrefixOf_iff_prefix] at hpre
    obtain ⟨t0, ht0⟩ := hpre
    have hdrop : s.drop (name.length + 1) = t0 := by
      rw [← ht0]
      simp
    rw [hdrop, headIsWS_eq_true_iff] at hws
    obtain ⟨c, t, hct, hc⟩ := hws
    refine ⟨name, hmem, c, t, hc, ?_⟩
    rw [← ht0, hct]
    simp
  · rintro ⟨name, hmem, c, t, hws, rfl⟩
    refine ⟨name, hmem, ?_, ?_⟩
    · rw [ List.isPrefixOf_iff_prefix]
      exact ⟨c :: t, by simp⟩
    · have : (name ++ c :: t).drop name.length = c :: t := by
        simp
      simp [List.drop_succ_cons, this, headIsWS, hws]

lemma regexIsMatch_eq_true_iff (line : String) :
    regexIsMatch line = true ↔ compilerHit line := by
  simp only [regexIsMatch, List.any_eq_true, List.mem_range]
  constructor
  · rintro ⟨i, hi, hpat⟩
    have key : ∃ j, tailMatch (line.data.drop j) = true := by
      simp only [patternAt, Bool.or_eq_true, List.any_eq_true,
        Bool.and_eq_true, List.mem_range] at hpat
      rcases hpat with h | ⟨n, hn, hvg, htm⟩
      · exact ⟨i, h⟩
      · refine ⟨i + n, ?_⟩
        rwa [List.drop_drop] at htm
    obtain ⟨j, hj⟩ := key
    rw [tailMatch_eq_true_iff] at hj
    obtain ⟨name, hmem, c, t, hws, heq⟩ := hj
    refine ⟨name, hmem, c, hws, ?_⟩
    refine ⟨line.data.take j, t, ?_⟩
    have hjoin := List.take_append_drop j line.data
    rw [heq] at hjoin
    conv_rhs => rw [← hjoin]
    simp
  · rintro ⟨name, hmem, c, hws, u, v, huv⟩
    refine ⟨u.length, ?_, ?_⟩
    · have h1 : u.length ≤ line.data.length := by
        rw [← huv]
        simp only [List.length_append, List.length_cons]
        omega
      omega
    · have hd : line.data.drop u.length = ('/' :: (name ++ [c])) ++ v := by
        rw [← huv, List.append_assoc]
        exact List.drop_left u _
      simp only [patternAt, Bool.or_eq_true]
      left
      rw [tailMatch_eq_true_iff]
      exact ⟨name, hmem, c, v, hws, by rw [hd]; simp⟩

lemma regexIsMatch_mono {L lineBig : String}
    (h : regexIsMatch L = true) (hsub : L.data <:+: lineBig.data) :
    regexIsMatch lineBig = true := by
  rw [regexIsMatch_eq_true_iff] at h ⊢
  obtain ⟨name, hmem, c, hws, hinf⟩ := h
  exact ⟨name, hmem, c, hws, hinf.trans hsub⟩

/-! ### The destination content of a run -/

lemma seqOut_false_join (rs : List (List Char)) (hne : rs ≠ []) :
    seqOut false rs = ((",\n").data) ++ joinRecs rs := by
  induction rs with
  | nil => exact absurd rfl hne
  | cons r rs ih =>
    cases rs with
    | nil => simp [seqOut, joinRecs]
    | cons q rs' =>
      have h1 : seqOut false (r :: q :: rs') =
          ((",\n").data) ++ r ++ seqOut false (q :: rs') := rfl
      rw [h1, ih (by simp)]
      simp [joinRecs, List.append_assoc]

lemma seqOut_true_join (rs : List (List Char)) :
    seqOut true rs = joinRecs rs := by
  cases rs with
  | nil => rfl
  | cons r rs =>
    cases rs with
    | nil => simp [seqOut, joinRecs]
    | cons q rs' =>
      have h1 : seqOut true (r :: q :: rs') = r ++ seqOut false (q :: rs') :=
        rfl
      rw [h1, seqOut_false_join (q :: rs') (by simp)]
      simp [joinRecs, List.append_assoc]

lemma foldl_process_spec (cwd : String) (lines : List String) :
    ∀ (d : Dest) (fe : Bool), d.failOn = [] →
      (lines.foldl (fun acc line => process_line line cwd acc.1 acc.2)
          (d, fe)).1.written =
        d.written ++ seqOut fe
          ((lines.filter fun l => is_compile_command l).map
            fun l => renderRecord (mkRecord cwd l)) ∧
      (lines.foldl (fun acc line => process_line line cwd acc.1 acc.2)
          (d, fe)).1.failOn = [] := by
  induction lines with
  | nil => intro d fe hfail; simp [seqOut, hfail]
  | cons line rest ih =>
    intro d fe hfail
    by_cases hacc : is_compile_command line
    · have hwr : ∀ (s : List Char), write_all d s =
          ({ written := d.written ++ s, nCalls := d.nCalls + 1,
             failOn := [] }, true) := by
        intro s
        simp [write_all, hfail]
      cases fe with
      | true =>
        have hstep : process_line line cwd d true =
            ({ written := d.written ++ renderRecord (mkRecord cwd line),
               nCalls := d.nCalls + 1, failOn := [] }, false) := by
          simp [process_line, hacc, hwr]
        obtain ⟨ihw, ihf⟩ := ih
          { written := d.written ++ renderRecord (mkRecord cwd line),
            nCalls := d.nCalls + 1, failOn := [] } false rfl
        simp only [List.foldl_cons, hstep]
        refine ⟨?_, ihf⟩
        rw [ihw]
        simp [List.filter_cons, hacc, seqOut, List.append_assoc]
      | false =>
        have hstep : process_line line cwd d false =
            ({ written := d.written ++ ((",\n").data) ++
                 renderRecord (mkRecord cwd line),
               nCalls := d.nCalls + 2, failOn := [] }, false) := by
          simp [process_line, hacc, write_all, hfail, List.append_assoc]
        obtain ⟨ihw, ihf⟩ := ih
          { written := d.written ++ ((",\n").data) ++
              renderRecord (mkRecord cwd line),
            nCalls := d.nCalls + 2, failOn := [] } false rfl
        simp only [List.foldl_cons, hstep]
        refine ⟨?_, ihf⟩
        rw [ihw]
        simp [List.filter_cons, hacc, seqOut, List.append_assoc]
    · have hstep : process_line line cwd d fe = (d, fe) := by
        simp [process_line, hacc]
      obtain ⟨ihw, ihf⟩ := ih d fe hfail
      simp only [List.foldl_cons, hstep]
      refine ⟨?_, ihf⟩
      rw [ihw]
      simp [List.filter_cons, hacc]

lemma runOutput_eq (lines : List String) (cwd : String) :
    runOutput lines cwd =
      some ((("[\n").data) ++
        joinRecs ((lines.filter fun l => is_compile_command l).map
          fun l => renderRecord (mkRecord cwd l)) ++ closeLit) := by
  have h0 : write_all { written := [], nCalls := 0, failOn := [] }
      (("[\n").data) =
      ({ written := ("[\n").data, nCalls := 1, failOn := [] }, true) := by
    decide
  obtain ⟨hw, hf⟩ := foldl_process_spec cwd lines
    { written := ("[\n").data, nCalls := 1, failOn := [] } true rfl
  unfold runOutput runResult runMain
  rw [h0]
  simp only [if_true]
  set st := lines.foldl (fun acc line => process_line line cwd acc.1 acc.2)
    ({ written := ("[\n").data, nCalls := 1, failOn := [] }, true) with hst
  have h2 : write_all st.1 closeLit =
      ({ written := st.1.written ++ closeLit, nCalls := st.1.nCalls + 1,
         failOn := [] }, true) := by
    simp [write_all, hf]
  have h2' : write_all st.1 (("\n]\n").data) =
      ({ written := st.1.written ++ closeLit, nCalls := st.1.nCalls + 1,
         failOn := [] }, true) := h2
  rw [h2']
  simp only [if_true, Option.map]
  rw [hw, seqOut_true_join]

/-! ### Round-trip of the serializer and the parser -/

lemma hexVal_hexDigit (m : Nat) (h : m < 16) :
    hexVal (hexDigit m) = some m := by
  interval_cases m <;> decide

lemma expectLit_append (lit rest : List Char) :
    expectLit lit (lit ++ rest) = some rest := by
  simp [expectLit]

lemma psb_quote (T : List Char) : parseStringBody ('"' :: T) = some ([], T) := by
  rw [parseStringBody.eq_def]
  simp

lemma psb_simple (e d : Char) (T : List Char) (he : e ≠ 'u')
    (hd : decodeEsc e = some d) :
    parseStringBody ('\\' :: e :: T) =
      (match parseStringBody T with
       | some (str, rem) => some (d :: str, rem)
       | none => none) := by
  rw [parseStringBody.eq_def]
  simp [he, hd]

lemma psb_raw (c : Char) (T : List Char) (h1 : c ≠ '"') (h2 : c ≠ '\\')
    (h8 : ¬c.toNat < 32) :
    parseStringBody (c :: T) =
      (match parseStringBody T with
       | some (str, rem) => some (c :: str, rem)
       | none => none) := by
  rw [parseStringBody.eq_def]
  simp [h1, h2, h8]

lemma psb_u (hx hy : Char) (vx vy : Nat) (T : List Char)
    (hhx : hexVal hx = some vx) (hhy : hexVal hy = some vy) :
    parseStringBody ('\\' :: 'u' :: '0' :: '0' :: hx :: hy :: T) =
      (match parseStringBody T with
       | some (str, rem) =>
         some (Char.ofNat (0 * 4096 + 0 * 256 + vx * 16 + vy) :: str, rem)
       | none => none) := by
  have h00 : hexVal '0' = some 0 := by decide
  rw [parseStringBody.eq_def]
  simp [h00, hhx, hhy]

lemma parseStringBody_escStr (s rest : List Char) :
    parseStringBody (escStr s ++ '"' :: rest) = some (s, rest) := by
  induction s with
  | nil =>
    simp only [escStr, List.nil_append]
    exact psb_quote rest
  | cons c s ih =>
    have hstep : escStr (c :: s) ++ '"' :: rest =
        escapeChar c ++ (escStr s ++ '"' :: rest) := by
      simp [escStr, List.append_assoc]
    rw [hstep]
    by_cases h1 : c = '"'
    · subst h1
      have he : escapeChar '"' = ['\\', '"'] := by decide
      rw [he, List.cons_append, List.cons_append, List.nil_append,
        psb_simple '"' '"' _ (by decide) (by decide), ih]
    · by_cases h2 : c = '\\'
      · subst h2
        have he : escapeChar '\\' = ['\\', '\\'] := by decide
        rw [he, List.cons_append, List.cons_append, List.nil_append,
          psb_simple '\\' '\\' _ (by decide) (by decide), ih]
      · by_cases h3 : c = '\x08'
        · subst h3
          have he : escapeChar '\x08' = ['\\', 'b'] := by decide
          rw [he, List.cons_append, List.cons_append, List.nil_append,
            psb_simple 'b' '\x08' _ (by decide) (by decide), ih]
        · by_cases h4 : c = '\t'
          · subst h4
            have he : escapeChar '\t' = ['\\', 't'] := by decide
            rw [he, List.cons_append, List.cons_append, List.nil_append,
              psb_simple 't' '\t' _ (by decide) (by decide), ih]
          · by_cases h5 : c = '\n'
            · subst h5
              have he : escapeChar '\n' = ['\\', 'n'] := by decide
              rw [he, List.cons_append, List.cons_append, List.nil_append,
                psb_simple 'n' '\n' _ (by decide) (by decide), ih]
            · by_cases h6 : c = '\x0c'
              · subst h6
                have he : escapeChar '\x0c' = ['\\', 'f'] := by decide
                rw [he, List.cons_append, List.cons_append, List.nil_append,
                  psb_simple 'f' '\x0c' _ (by decide) (by decide), ih]
              · by_cases h7 : c = '\r'
                · subst h7
                  have he : escapeChar '\r' = ['\\', 'r'] := by decide
                  rw [he, List.cons_append, List.cons_append,
                    List.nil_append,
                    psb_simple 'r' '\r' _ (by decide) (by decide), ih]
                · by_cases h8 : c.toNat < 32
                  · have he : escapeChar c =
                        ['\\', 'u', '0', '0', hexDigit (c.toNat / 16),
                         hexDigit (c.toNat % 16)] := by
                      simp [escapeChar, h1, h2, h3, h4, h5, h6, h7, h8]
                    have hx : hexVal (hexDigit (c.toNat / 16)) =
                        some (c.toNat / 16) :=
                      hexVal_hexDigit _ (by omega)
                    have hy : hexVal (hexDigit (c.toNat % 16)) =
                        some (c.toNat % 16) :=
                      hexVal_hexDigit _ (by omega)
                    have harith :
                        0 * 4096 + 0 * 256 + c.toNat / 16 * 16 +
                          c.toNat % 16 = c.toNat := by
                      omega
                    rw [he]
                    simp only [List.cons_append, List.nil_append]
                    rw [psb_u _ _ _ _ _ hx hy, ih]
                    rw [harith, Char.ofNat_toNat]
                  · have he : escapeChar c = [c] := by
                      simp [escapeChar, h1, h2, h3, h4, h5, h6, h7, h8]
                    rw [he, List.cons_append, List.nil_append,
                      psb_raw c _ h1 h2 h8, ih]

lemma parseRecordPrefix_render (r : CompileCommand) (rest : List Char) :
    parseRecordPrefix (renderRecord r ++ rest) = some (r, rest) := by
  obtain ⟨⟨ld⟩, ⟨lc⟩, ⟨lf⟩⟩ := r
  have hshape : renderRecord ⟨⟨ld⟩, ⟨lc⟩, ⟨lf⟩⟩ ++ rest =
      objHead ++ (escStr ld ++ '"' ::
        (sepCommand ++ (escStr lc ++ '"' ::
          (sepFile ++ (escStr lf ++ '"' :: (objTail ++ rest)))))) := by
    simp [renderRecord, List.append_assoc]
  rw [hshape]
  simp [parseRecordPrefix, expectLit_append, parseStringBody_escStr]

lemma renderRecord_length_pos (r : CompileCommand) :
    0 < (renderRecord r).length := by
  have h : objHead.length = 18 := by decide
  simp only [renderRecord, List.length_append, h]
  omega

lemma joinRecs_length_ge (rs : List CompileCommand) :
    rs.length ≤ (joinRecs (rs.map renderRecord)).length := by
  induction rs with
  | nil => simp [joinRecs]
  | cons r rs ih =>
    cases rs with
    | nil =>
      simpa [joinRecs] using renderRecord_length_pos r
    | cons q rs' =>
      have hj : joinRecs ((r :: q :: rs').map renderRecord) =
          renderRecord r ++ ((",\n").data) ++
            joinRecs ((q :: rs').map renderRecord) := by
        simp [joinRecs]
      rw [hj]
      have h1 := renderRecord_length_pos r
      simp only [List.length_append, List.length_cons] at ih ⊢
      omega

lemma comma_append_ne_close (x : List Char) :
    (((",\n").data) ++ x) ≠ closeLit := by
  have hc : ((",\n").data) = [',', '\n'] := by decide
  have hd : closeLit = ['\n', ']', '\n'] := by decide
  rw [hc, hd]
  intro h
  simp at h

lemma cons_comma_ne_close (x : List Char) : (',' :: '\n' :: x) ≠ closeLit := by
  have hd : closeLit = ['\n', ']', '\n'] := by decide
  rw [hd]
  intro h
  simp at h

lemma expectLit_commaNl (x : List Char) :
    expectLit [',', '\n'] (',' :: '\n' :: x) = some x :=
  expectLit_append [',', '\n'] x

lemma joinclose_ne_close (r : CompileCommand) (rs : List CompileCommand) :
    joinRecs ((r :: rs).map renderRecord) ++ closeLit ≠ closeLit := by
  intro h
  have h1 := congrArg List.length h
  have h2 := joinRecs_length_ge (r :: rs)
  simp only [List.length_append, List.length_cons] at h1 h2
  omega

lemma parseElems_render (rs : List CompileCommand) :
    ∀ (r : CompileCommand) (fuel : Nat), rs.length ≤ fuel →
      parseElems (fuel + 1) (joinRecs ((r :: rs).map renderRecord) ++
        closeLit) = some (r :: rs) := by
  induction rs with
  | nil =>
    intro r fuel hf
    have hj : joinRecs (([r] : List CompileCommand).map renderRecord) =
        renderRecord r := by
      simp [joinRecs]
    rw [hj, parseElems.eq_def]
    simp [parseRecordPrefix_render]
  | cons q rs' ih =>
    intro r fuel hf
    cases fuel with
    | zero => simp at hf
    | succ f =>
      have hj : joinRecs ((r :: q :: rs').map renderRecord) ++ closeLit =
          renderRecord r ++ (((",\n").data) ++
            (joinRecs ((q :: rs').map renderRecord) ++ closeLit)) := by
        simp [joinRecs, List.append_assoc]
      rw [hj]
      have hstep : parseElems (f + 1 + 1) (renderRecord r ++
          (((",\n").data) ++
            (joinRecs ((q :: rs').map renderRecord) ++ closeLit))) =
          (match parseElems (f + 1)
              (joinRecs ((q :: rs').map renderRecord) ++ closeLit) with
           | some rs2 => some (r :: rs2)
           | none => none) := by
        rw [parseElems.eq_def]
        simp [parseRecordPrefix_render, cons_comma_ne_close,
          expectLit_commaNl]
      rw [hstep, ih q f (by simp at hf; omega)]

lemma parseTopArray_render (rs : List CompileCommand) :
    parseTopArray (("[\n").data ++ joinRecs (rs.map renderRecord) ++
      closeLit) = some rs := by
  cases rs with
  | nil => decide
  | cons r rs' =>
    have hassoc : ("[\n").data ++ joinRecs ((r :: rs').map renderRecord) ++
        closeLit =
        ("[\n").data ++ (joinRecs ((r :: rs').map renderRecord) ++
          closeLit) := by
      rw [List.append_assoc]
    rw [hassoc]
    simp only [parseTopArray, expectLit_append]
    rw [if_neg (joinclose_ne_close r rs')]
    have hlen := joinRecs_length_ge (r :: rs')
    have hlen2 : rs'.length ≤
        (joinRecs ((r :: rs').map renderRecord) ++ closeLit).length := by
      simp only [List.length_append, List.length_cons] at hlen ⊢
      omega
    exact parseElems_render rs' r _ hlen2

/-! ### The claims -/

/-- C1: the line `/usr/bin/g++ -c -o bar.o bar.cpp -I/usr/include` is
accepted, but the pattern-based extraction does NOT yield `bar.cpp`: under
the regex crate leftmost-first semantics the alternation `(c|cpp|cc|cxx)`
prefers the alternative `c`, so the capture stops inside the extension and
the `file` field becomes `bar.c` (the `cpp`, `cc`, `cxx` alternatives are
unreachable, and the trailing `\s?` is optional, so no followed-by-space
constraint exists). -/
theorem extraction_truncates_extension :
    is_compile_command "/usr/bin/g++ -c -o bar.o bar.cpp -I/usr/include" =
      true ∧
    source_file "/usr/bin/g++ -c -o bar.o bar.cpp -I/usr/include" =
      "bar.c" ∧
    source_file "/usr/bin/g++ -c -o bar.o bar.cpp -I/usr/include" ≠
      "bar.cpp" := by
  decide

/-- C2 (counterexample): the line `gcc -c -o foo.o foo.c` satisfies all four
conditions as the claim states them — in particular the bare compiler
basename `gcc ` with no path prefix — yet `is_compile_command` rejects it,
because `compiler_regex` demands a `/` immediately before the basename. -/
theorem bare_basename_line_rejected :
    containsStr "gcc -c -o foo.o foo.c" " -c " = true ∧
    containsStr "gcc -c -o foo.o foo.c" " -o " = true ∧
    containsStr "gcc -c -o foo.o foo.c" ".c" = true ∧
    claimCompilerPattern "gcc -c -o foo.o foo.c" ∧
    is_compile_command "gcc -c -o foo.o foo.c" = false := by
  refine ⟨by decide, by decide, by decide, ?_, by decide⟩
  exact ⟨("gcc").data, by decide, [], Or.inl rfl, by decide⟩

/-- C2 (amended): for every line that contains the token ` -c `, contains
` -o `, contains one of the source extensions, and contains a compiler
basename that is immediately preceded by `/` (the path prefix is otherwise
optional) and followed by a space, classification accepts and the record's
`command` field is the input line byte for byte. -/
theorem accept_of_conditions (line cwd : String)
    (h1 : containsStr line " -c " = true)
    (h2 : containsStr line " -o " = true)
    (h3 : containsStr line ".c" = true ∨ containsStr line ".cpp" = true ∨
      containsStr line ".cc" = true ∨ containsStr line ".cxx" = true)
    (h4 : ∃ name ∈ compilerBasenames,
      ('/' :: (name ++ [' '])) <:+: line.data) :
    is_compile_command line = true ∧ (mkRecord cwd line).command = line := by
  have hr : regexIsMatch line = true := by
    rw [regexIsMatch_eq_true_iff]
    obtain ⟨name, hmem, hinf⟩ := h4
    exact ⟨name, hmem, ' ', by decide, hinf⟩
  refine ⟨?_, rfl⟩
  simp only [is_compile_command]
  rcases h3 with h3 | h3 | h3 | h3 <;> simp [hr, h1, h2, h3]

/-- C2 (witness): a concrete run of the amended theorem on scenario A. -/
theorem accept_of_conditions_witness :
    is_compile_command "/usr/bin/gcc -c -o foo.o foo.c" = true ∧
    (mkRecord "/src" "/usr/bin/gcc -c -o foo.o foo.c").command =
      "/usr/bin/gcc -c -o foo.o foo.c" :=
  accept_of_conditions "/usr/bin/gcc -c -o foo.o foo.c" "/src" (by decide)
    (by decide) (Or.inl (by decide)) ⟨("gcc").data, by decide, by decide⟩

/-- C3: an accepted record whose serialization write is rejected by the
destination is silently dropped — the `let _ =` in `process_line` discards
the error, the run continues and completes with `Ok`, and the output is the
empty array without the record.  The spec requires such a failure to abort
the run, so this exhibits the divergence at a concrete input: one accepted
line, a destination whose second write call (the record body) fails. -/
theorem record_write_failure_swallowed :
    is_compile_command "/usr/bin/gcc -c -o foo.o foo.c" = true ∧
    runResult ["/usr/bin/gcc -c -o foo.o foo.c"] "/src"
        { written := [], nCalls := 0, failOn := [1] } =
      some { written := ("[\n\n]\n").data, nCalls := 3, failOn := [1] } := by
  decide

/-- C4: the run writes a `,\n` separator before a record iff some record was
written earlier (this is the shape of `joinRecs`); a run whose every line is
rejected yields exactly the text between brackets being empty, so the whole
file reads left bracket, newline, newline, right bracket, newline; a run
with exactly one accepted line yields that record with no separator. -/
theorem sink_comma_separation :
    (∀ (lines : List String) (cwd : String),
      runOutput lines cwd =
        some ((("[\n").data) ++
          joinRecs ((lines.filter fun l => is_compile_command l).map
            fun l => renderRecord (mkRecord cwd l)) ++ closeLit)) ∧
    (∀ cwd : String, runOutput ["make: nothing to be done"] cwd =
      some (("[\n\n]\n").data)) ∧
    (∀ cwd : String, runOutput ["/usr/bin/gcc -c -o a.o a.c"] cwd =
      some ((("[\n").data) ++
        renderRecord (mkRecord cwd "/usr/bin/gcc -c -o a.o a.c") ++
        closeLit)) := by
  refine ⟨runOutput_eq, fun cwd => ?_, fun cwd => ?_⟩
  · have h : (["make: nothing to be done"].filter
        fun l => is_compile_command l) = [] := by decide
    rw [runOutput_eq, h]
    simp only [List.map_nil, joinRecs]
    decide
  · have h : (["/usr/bin/gcc -c -o a.o a.c"].filter
        fun l => is_compile_command l) = ["/usr/bin/gcc -c -o a.o a.c"] := by
      decide
    rw [runOutput_eq, h]
    simp [joinRecs]

/-- C5: the records serialized in one run are exactly the accepted lines, in
input order, one record per accepted line and none for a rejected line; the
emitted array deserializes back to those records with no field loss, and the
parser accepts exactly the three string fields directory, command, file. -/
theorem records_in_order_roundtrip (lines : List String) (cwd : String) :
    (runOutput lines cwd).bind parseTopArray =
      some ((lines.filter fun l => is_compile_command l).map
        fun l => mkRecord cwd l) := by
  rw [runOutput_eq]
  have hbind : (some ((("[\n").data) ++
      joinRecs ((lines.filter fun l => is_compile_command l).map
        fun l => renderRecord (mkRecord cwd l)) ++ closeLit)).bind
        parseTopArray =
      parseTopArray ((("[\n").data) ++
        joinRecs ((lines.filter fun l => is_compile_command l).map
          fun l => renderRecord (mkRecord cwd l)) ++ closeLit) := rfl
  rw [hbind]
  have hmap : (lines.filter fun l => is_compile_command l).map
      (fun l => renderRecord (mkRecord cwd l)) =
      ((lines.filter fun l => is_compile_command l).map
        fun l => mkRecord cwd l).map renderRecord := by
    simp [List.map_map, Function.comp]
  rw [hmap]
  exact parseTopArray_render _

/-- C6: the make directory-change line is rejected and the diagnosed reasons
include all four of MissingCompileFlag, MissingOutputFlag,
MissingSourceExtension and NotACompilerInvocation. -/
theorem makefile_line_rejected_reasons :
    is_compile_command makeNoiseLine = false ∧
    ReasonCode.MissingCompileFlag ∈ reasons makeNoiseLine ∧
    ReasonCode.MissingOutputFlag ∈ reasons makeNoiseLine ∧
    ReasonCode.MissingSourceExtension ∈ reasons makeNoiseLine ∧
    ReasonCode.NotACompilerInvocation ∈ reasons makeNoiseLine := by
  decide

/-- C7: any record one of whose fields contains a JSON-significant character
(quote, backslash, control character) serializes to a string our JSON parser
accepts, and parsing yields the original record, field for field. -/
theorem record_roundtrip (d c f : String)
    (_h : (∃ x ∈ d.data, jsonSignificant x) ∨
      (∃ x ∈ c.data, jsonSignificant x) ∨
      (∃ x ∈ f.data, jsonSignificant x)) :
    parseRecordString (renderRecord ⟨d, c, f⟩) = some ⟨d, c, f⟩ := by
  have hp : parseRecordPrefix (renderRecord ⟨d, c, f⟩ ++ []) =
      some (⟨d, c, f⟩, []) := parseRecordPrefix_render _ _
  rw [List.append_nil] at hp
  simp [parseRecordString, hp]

/-- C7 (witness): round trip of a record whose command holds a quote, a
backslash and a newline. -/
theorem record_roundtrip_witness :
    ((∃ x ∈ ("/w").data, jsonSignificant x) ∨
      (∃ x ∈ ("g \"a\\b\"\nend").data, jsonSignificant x) ∨
      (∃ x ∈ ("a.c").data, jsonSignificant x)) ∧
    parseRecordString (renderRecord ⟨"/w", "g \"a\\b\"\nend", "a.c"⟩) =
      some ⟨"/w", "g \"a\\b\"\nend", "a.c"⟩ :=
  ⟨Or.inr (Or.inl ⟨'"', by decide, Or.inl rfl⟩),
    record_roundtrip "/w" "g \"a\\b\"\nend" "a.c"
      (Or.inr (Or.inl ⟨'"', by decide, Or.inl rfl⟩))⟩

/-- C8: acceptance is decided by the four conditions alone — the iff holds
for every line, with no reference to the denylist — and in particular the
concrete line containing both `CMakeFiles` and `target` is accepted. -/
theorem acceptance_ignores_denylist :
    (∀ line : String,
      is_compile_command line = true ↔
        (regexIsMatch line = true ∧ containsStr line " -c " = true ∧
          containsStr line " -o " = true ∧
          (containsStr line ".c" = true ∨ containsStr line ".cpp" = true ∨
            containsStr line ".cc" = true ∨
            containsStr line ".cxx" = true))) ∧
    (containsStr "/usr/bin/gcc -c -o CMakeFiles/x.o target/z.c"
        "CMakeFiles" = true ∧
      containsStr "/usr/bin/gcc -c -o CMakeFiles/x.o target/z.c"
        "target" = true ∧
      is_compile_command "/usr/bin/gcc -c -o CMakeFiles/x.o target/z.c" =
        true) := by
  constructor
  · intro line
    simp only [is_compile_command, Bool.and_eq_true, Bool.or_eq_true]
    tauto
  · exact ⟨by decide, by decide, by decide⟩

/-- C9: classification is a total deterministic function of the line: every
line maps to exactly one outcome, and re-classifying the same line yields
the same outcome (the embedding is a pure function, as is the Rust code,
which performs only substring and regex tests). -/
theorem classification_total_deterministic :
    ∀ line : String, ∃! o : ClassificationOutcome, classify line = o :=
  fun line => ⟨classify line, rfl, fun _ hy => hy.symm⟩

/-- C10: acceptance is monotone under surrounding text — all four acceptance
tests are substring-containment or unanchored-regex tests, so if a line is
accepted, every line containing it as a contiguous substring is accepted. -/
theorem accept_monotone (L lineBig : String)
    (hacc : is_compile_command L = true)
    (hsub : L.data <:+: lineBig.data) :
    is_compile_command lineBig = true := by
  simp only [is_compile_command, Bool.and_eq_true, Bool.or_eq_true]
    at hacc ⊢
  obtain ⟨⟨⟨hr, hc⟩, ho⟩, hs⟩ := hacc
  refine ⟨⟨⟨regexIsMatch_mono hr hsub, containsStr_mono hc hsub⟩,
    containsStr_mono ho hsub⟩, ?_⟩
  rcases hs with ((h | h) | h) | h
  · exact Or.inl (Or.inl (Or.inl (containsStr_mono h hsub)))
  · exact Or.inl (Or.inl (Or.inr (containsStr_mono h hsub)))
  · exact Or.inl (Or.inr (containsStr_mono h hsub))
  · exact Or.inr (containsStr_mono h hsub)

/-- C10 (witness): a line quoting a full accepted compile command inside
unrelated text is itself accepted. -/
theorem accept_monotone_witness :
    is_compile_command "/usr/bin/gcc -c -o a.o a.c" = true ∧
    ("/usr/bin/gcc -c -o a.o a.c").data <:+:
      ("echo /usr/bin/gcc -c -o a.o a.c done").data ∧
    is_compile_command "echo /usr/bin/gcc -c -o a.o a.c done" = true :=
  ⟨by decide, by decide,
    accept_monotone "/usr/bin/gcc -c -o a.o a.c"
      "echo /usr/bin/gcc -c -o a.o a.c done" (by decide) (by decide)⟩
